import Mathlib

/-!
Verification of the Tic Tac Toe game engine in `src/main.py`.

The board is a Python `list[str]` of nine cells; the empty cell is the
one-space string `" "`, the markers are `"X"` and `"O"`.  We embed the
board as `List String`.  Indexing `board[i]` is total in the source for
the indices actually used (all functions touch indices `0..8` on boards
of length 9); out-of-range reads, which would raise `IndexError` in
Python, are mapped to the sentinel `""`, a string no cell ever holds,
and theorems carry a `length = 9` hypothesis where indexing matters.

Python `for` loops that return the first element satisfying a test are
embedded as `List.find?`; the fallible `int` results of functions that
can fall through (`choose_ai_move` on a full board would raise
`IndexError` at `available_moves(board)[0]`) become `Option Nat`.
-/

namespace Crunch

/-- A Tic Tac Toe board: nine cells, each `" "`, `"X"` or `"O"`. -/
abbrev Board := List String

/-- `board[i]` — out-of-range reads give the sentinel `""`. -/
def cell (b : Board) (i : Nat) : String := b.getD i ""

/-- `winning_lines()` from src/main.py: the 3 rows, 3 columns and 2
diagonals, in source order. -/
def winning_lines : List (Nat × Nat × Nat) :=
  [(0, 1, 2), (3, 4, 5), (6, 7, 8),
   (0, 3, 6), (1, 4, 7), (2, 5, 8),
   (0, 4, 8), (2, 4, 6)]

/-- The test of the loop body of `find_winner`:
`board[a] != " " and board[a] == board[b] == board[c]`. -/
def lineHit (b : Board) (l : Nat × Nat × Nat) : Bool :=
  decide (cell b l.1 ≠ " " ∧ cell b l.1 = cell b l.2.1 ∧ cell b l.2.1 = cell b l.2.2)

/-- `find_winner(board)` from src/main.py: scan the winning lines in
order, return `board[a]` of the first fully matched line, else `None`. -/
def find_winner (b : Board) : Option String :=
  (winning_lines.find? (lineHit b)).map (fun l => cell b l.1)

/-- `available_moves(board)` from src/main.py:
`[idx for idx, cell in enumerate(board) if cell == " "]`. -/
def available_moves (b : Board) : List Nat :=
  (List.range b.length).filter (fun i => cell b i == " ")

/-- `find_finishing_move(board, marker)` from src/main.py: for each
available index, place `marker` on a copy (`List.set` is the copy with
one cell changed) and return the first index whose copy `find_winner`
declares won by `marker`. -/
def find_finishing_move (b : Board) (marker : String) : Option Nat :=
  (available_moves b).find? (fun idx => find_winner (b.set idx marker) == some marker)

/-- The fixed preference order of `choose_ai_move`. -/
def preferred_spaces : List Nat := [4, 0, 2, 6, 8, 1, 3, 5, 7]

/-- `choose_ai_move(board, ai_marker, human_marker)` from src/main.py:
win if possible, else block, else first empty preferred space, else the
lowest available index.  The Python function returns `int` and raises
`IndexError` on a full board at `available_moves(board)[0]`; that
fallibility is the `none` of the `Option`. -/
def choose_ai_move (b : Board) (ai_marker human_marker : String) : Option Nat :=
  match find_finishing_move b ai_marker with
  | some winning_move => some winning_move
  | none =>
    match find_finishing_move b human_marker with
    | some blocking_move => some blocking_move
    | none =>
      match preferred_spaces.find? (fun idx => cell b idx == " ") with
      | some idx => some idx
      | none => (available_moves b).head?

/-- A winning line in the claim's vocabulary: all three cells non-empty and
identical. -/
def lineFilled (b : Board) (l : Nat × Nat × Nat) : Prop :=
  cell b l.1 ≠ " " ∧ cell b l.2.1 ≠ " " ∧ cell b l.2.2 ≠ " " ∧
  cell b l.1 = cell b l.2.1 ∧ cell b l.2.1 = cell b l.2.2

/-- The error taxonomy of spec §7: the single programmatic error of the core. -/
inductive MoveError where
  | invalidMoveError
deriving DecidableEq

/-- Modelled from the spec: `applyMove(board, index, marker) -> board'` of spec
§4.1 with the error taxonomy of spec §7.  src/main.py has no separate
move-application operation — the session loop performs the unchecked write
`board[move] = current` only after `prompt_human_move` / `choose_ai_move` have
filtered the move — so the operation and its `InvalidMoveError` are modelled
from the spec's words: the precondition (`index` in `[0,8]` and `board[index]`
empty) is checked, a violation raises `InvalidMoveError` and does not touch the
board.  The result pair is (error raised if any, caller-visible board after the
call). -/
def apply_move (board : Board) (index : Nat) (marker : String) :
    Option MoveError × Board :=
  if index ≤ 8 ∧ cell board index = " " then (none, board.set index marker)
  else (some MoveError.invalidMoveError, board)

/-- The loop of `find_finishing_move` with the board threaded as the mutable
object Python sees: `trial = board.copy()` binds a fresh value, the write
`trial[idx] = marker` lands on that copy, and the input object is handed back
to the caller as the second component of the result. -/
def find_finishing_move_loop (board : Board) (marker : String) :
    List Nat → Option Nat × Board
  | [] => (none, board)
  | idx :: rest =>
    let trial := board
    let trial2 := trial.set idx marker
    if find_winner trial2 = some marker then (some idx, board)
    else find_finishing_move_loop board marker rest

/-- `find_finishing_move` with the caller-visible board state made explicit. -/
def find_finishing_move_st (board : Board) (marker : String) : Option Nat × Board :=
  find_finishing_move_loop board marker (available_moves board)

/-- `board = [" "] * 9` — the board at session start. -/
def empty_board : Board := List.replicate 9 " "

/-- The boards the session loop of `run_tic_tac_toe` can hold, paired with the
marker whose turn it is.  `init` is the empty board with the human (X) to move;
a human turn places X on any in-range empty cell (`prompt_human_move` admits
exactly those); an AI turn places O where `choose_ai_move(board, "O", "X")`
says.  The loop's terminal checks only stop the game early, so dropping them
over-approximates the reachable set: every board the loop ever holds is
`BoardReached`. -/
inductive BoardReached : Board → String → Prop
  | init : BoardReached empty_board "X"
  | human : ∀ {b : Board} {m : Nat}, BoardReached b "X" → m < 9 → cell b m = " " →
      BoardReached (b.set m "X") "O"
  | ai : ∀ {b : Board} {m : Nat}, BoardReached b "O" →
      choose_ai_move b "O" "X" = some m → BoardReached (b.set m "O") "X"

/-- The two ways the session loop returns: `"{winner} wins!"` or a tie. -/
inductive GameResult where
  | win : String → GameResult
  | tie : GameResult
deriving DecidableEq

/-- `current = "O" if current == "X" else "X"`. -/
def next_marker (c : String) : String := if c = "X" then "O" else "X"

/-- The move of one loop iteration: the human collaborator `hm` when X is to
move, else `choose_ai_move(board, "O", "X")` (whose Python `int` we read off
the `Option`). -/
def game_move (hm : Board → Nat) (b : Board) (c : String) : Nat :=
  if c = "X" then hm b else (choose_ai_move b "O" "X").getD 0

/-- The while-loop of `run_tic_tac_toe`, unrolled on a fuel argument: place the
current marker, return the winner if the move won, return a tie if the board
filled up, otherwise flip the marker and continue.  `none` means the fuel ran
out before the loop returned. -/
def run_game (hm : Board → Nat) : Nat → Board → String → Option GameResult
  | 0, _, _ => none
  | fuel + 1, b, c =>
    match find_winner (b.set (game_move hm b c) c) with
    | some w => some (GameResult.win w)
    | none =>
      if available_moves (b.set (game_move hm b c) c) = [] then some GameResult.tie
      else run_game hm fuel (b.set (game_move hm b c) c) (next_marker c)

/-- On a board of full length, `cell` is plain indexing. -/
lemma cell_eq_getElem (b : Board) (i : Nat) (h : i < b.length) :
    cell b i = b[i] := by
  simp [cell, List.getD_eq_getElem?_getD, List.getElem?_eq_getElem h]

/-- Membership in `available_moves`: exactly the in-range empty cells. -/
lemma mem_available_moves (b : Board) (i : Nat) :
    i ∈ available_moves b ↔ i < b.length ∧ cell b i = " " := by
  simp [available_moves, List.mem_filter, List.mem_range]

/-- `available_moves` is strictly ascending. -/
lemma available_moves_sorted (b : Board) :
    List.Sorted (· < ·) (available_moves b) :=
  (List.pairwise_lt_range _).filter _

/-- `available_moves` is empty iff the board has no empty cell. -/
lemma available_moves_eq_nil_iff (b : Board) :
    available_moves b = [] ↔ " " ∉ b := by
  constructor
  · intro h hmem
    obtain ⟨i, hi, hcell⟩ := List.mem_iff_getElem.mp hmem
    have : i ∈ available_moves b := by
      rw [mem_available_moves]
      exact ⟨hi, by rw [cell_eq_getElem b i hi]; exact hcell⟩
    simp [h] at this
  · intro h
    rw [available_moves, List.filter_eq_nil_iff]
    intro i hi
    rw [List.mem_range] at hi
    simp only [beq_iff_eq]
    intro hc
    exact h (by rw [cell_eq_getElem b i hi] at hc; exact hc ▸ List.getElem_mem hi)

/-- The count of available moves equals the count of empty cells. -/
lemma length_available_moves (b : Board) :
    (available_moves b).length = b.count " " := by
  induction b using List.reverseRecOn with
  | nil => rfl
  | append_singleton l x ih =>
    rw [available_moves, List.length_append, List.length_singleton,
      List.range_succ, List.filter_append]
    have hcongr : (List.range l.length).filter (fun i => cell (l ++ [x]) i == " ")
        = (List.range l.length).filter (fun i => cell l i == " ") := by
      apply List.filter_congr
      intro i hi
      rw [List.mem_range] at hi
      have hc : cell (l ++ [x]) i = cell l i := List.getD_append l [x] "" i hi
      rw [hc]
    rw [hcongr, List.length_append, ← available_moves, ih, List.count_append,
      List.count_singleton]
    have hx : cell (l ++ [x]) l.length = x := by
      simp [cell, List.getD_append_right l [x] "" l.length le_rfl]
    by_cases hxe : x = " "
    · subst hxe
      simp [hx]
    · simp [hx, hxe]

/-- Empty and occupied cells partition the board. -/
lemma count_empty_add_occupied (b : Board) :
    b.count " " + (b.filter (fun x => x != " ")).length = b.length := by
  induction b with
  | nil => rfl
  | cons y l ih =>
    rw [List.count_cons, List.length_cons]
    by_cases hy : y = " " <;> simp [List.filter_cons, hy, ← ih] <;> omega

/-- C7: `availableMoves(board)` returns exactly the indices of empty cells in
strictly ascending order — the complement of the occupied cells — with length
equal to 9 minus the number of occupied cells, and the empty sequence when the
board is full. -/
theorem available_moves_spec (b : Board) (hlen : b.length = 9) :
    (∀ i, i ∈ available_moves b ↔ i < 9 ∧ cell b i = " ") ∧
    List.Sorted (· < ·) (available_moves b) ∧
    (available_moves b).length = 9 - (b.filter (fun x => x != " ")).length ∧
    ((∀ x ∈ b, x ≠ " ") → available_moves b = []) := by
  refine ⟨fun i => by rw [mem_available_moves, hlen], available_moves_sorted b, ?_, ?_⟩
  · have h1 := length_available_moves b
    have h2 := count_empty_add_occupied b
    omega
  · intro hfull
    rw [available_moves_eq_nil_iff]
    intro hmem
    exact hfull " " hmem rfl

/-- Witness for C7 on a concrete board. -/
theorem available_moves_spec_witness :
    (∀ i, i ∈ available_moves ["X", " ", "O", " ", " ", " ", " ", " ", " "]
        ↔ i < 9 ∧ cell ["X", " ", "O", " ", " ", " ", " ", " ", " "] i = " ") ∧
    List.Sorted (· < ·) (available_moves ["X", " ", "O", " ", " ", " ", " ", " ", " "]) ∧
    (available_moves ["X", " ", "O", " ", " ", " ", " ", " ", " "]).length
      = 9 - (List.filter (fun x => x != " ") ["X", " ", "O", " ", " ", " ", " ", " ", " "]).length ∧
    ((∀ x ∈ (["X", " ", "O", " ", " ", " ", " ", " ", " "] : Board), x ≠ " ")
      → available_moves ["X", " ", "O", " ", " ", " ", " ", " ", " "] = []) :=
  available_moves_spec ["X", " ", "O", " ", " ", " ", " ", " ", " "] (by decide)

/-- The source loop test agrees with the claim's vocabulary. -/
lemma lineHit_iff_lineFilled (b : Board) (l : Nat × Nat × Nat) :
    lineHit b l = true ↔ lineFilled b l := by
  rw [lineHit, decide_eq_true_iff, lineFilled]
  constructor
  · rintro ⟨h1, h2, h3⟩
    exact ⟨h1, h2 ▸ h1, (h2.trans h3) ▸ h1, h2, h3⟩
  · rintro ⟨h1, _, _, h4, h5⟩
    exact ⟨h1, h4, h5⟩

/-- C3: `findWinner` returns the marker of the first winning line (in the fixed
source order) whose three cells are all non-empty and identical, and `none`
when no line is fully matched. -/
theorem find_winner_spec (b : Board) (_hlen : b.length = 9) :
    (∀ m, find_winner b = some m ↔
      ∃ l ls₁ ls₂, winning_lines = ls₁ ++ l :: ls₂ ∧ lineFilled b l ∧
        m = cell b l.1 ∧ ∀ l2 ∈ ls₁, ¬ lineFilled b l2) ∧
    (find_winner b = none ↔ ∀ l ∈ winning_lines, ¬ lineFilled b l) := by
  constructor
  · intro m
    rw [find_winner, Option.map_eq_some']
    constructor
    · rintro ⟨l, hfind, rfl⟩
      rw [List.find?_eq_some] at hfind
      obtain ⟨hhit, ls₁, ls₂, heq, hprev⟩ := hfind
      refine ⟨l, ls₁, ls₂, heq, (lineHit_iff_lineFilled b l).mp hhit, rfl, ?_⟩
      intro l2 hl2 hfill
      have := hprev l2 hl2
      rw [Bool.not_eq_eq_eq_not, Bool.not_true] at this
      rw [(lineHit_iff_lineFilled b l2).mpr hfill] at this
      exact Bool.true_eq_false.mp this
    · rintro ⟨l, ls₁, ls₂, heq, hfill, rfl, hprev⟩
      refine ⟨l, ?_, rfl⟩
      rw [List.find?_eq_some]
      refine ⟨(lineHit_iff_lineFilled b l).mpr hfill, ls₁, ls₂, heq, ?_⟩
      intro l2 hl2
      rw [Bool.not_eq_eq_eq_not, Bool.not_true]
      by_contra hne
      have : lineHit b l2 = true := by
        cases h : lineHit b l2
        · exact absurd h hne
        · rfl
      exact hprev l2 hl2 ((lineHit_iff_lineFilled b l2).mp this)
  · rw [find_winner, Option.map_eq_none', List.find?_eq_none]
    constructor
    · intro h l hl hfill
      exact h l hl ((lineHit_iff_lineFilled b l).mpr hfill)
    · intro h l hl hhit
      exact h l hl ((lineHit_iff_lineFilled b l).mp hhit)

/-- Witness for C3 on a concrete board: X holds the top row. -/
theorem find_winner_spec_witness :
    (∀ m, find_winner ["X", "X", "X", "O", "O", " ", " ", " ", " "] = some m ↔
      ∃ l ls₁ ls₂, winning_lines = ls₁ ++ l :: ls₂ ∧
        lineFilled ["X", "X", "X", "O", "O", " ", " ", " ", " "] l ∧
        m = cell ["X", "X", "X", "O", "O", " ", " ", " ", " "] l.1 ∧
        ∀ l2 ∈ ls₁, ¬ lineFilled ["X", "X", "X", "O", "O", " ", " ", " ", " "] l2) ∧
    (find_winner ["X", "X", "X", "O", "O", " ", " ", " ", " "] = none ↔
      ∀ l ∈ winning_lines, ¬ lineFilled ["X", "X", "X", "O", "O", " ", " ", " ", " "] l) :=
  find_winner_spec ["X", "X", "X", "O", "O", " ", " ", " ", " "] (by decide)

/-- On a strictly ascending list, a successful `find?` yields a member
satisfying the test that no smaller member satisfies. -/
lemma find?_sorted_some (l : List Nat) (hs : List.Sorted (· < ·) l) (p : Nat → Bool)
    (i : Nat) (h : l.find? p = some i) :
    i ∈ l ∧ p i = true ∧ ∀ j ∈ l, j < i → p j = false := by
  rw [List.find?_eq_some] at h
  obtain ⟨hp, as, bs, rfl, hprev⟩ := h
  rw [List.Sorted, List.pairwise_append] at hs
  obtain ⟨-, hs2, -⟩ := hs
  have hibs := (List.pairwise_cons.mp hs2).1
  refine ⟨List.mem_append_right _ (List.mem_cons_self i bs), hp, ?_⟩
  intro j hj hji
  rcases List.mem_append.mp hj with hjas | hjcons
  · simpa using hprev j hjas
  · rcases List.mem_cons.mp hjcons with rfl | hjbs
    · omega
    · exact absurd (hibs j hjbs) (by omega)

/-- On a strictly ascending list, `find?` returns exactly the least member
satisfying the test. -/
lemma find?_sorted_eq_some_iff (l : List Nat) (hs : List.Sorted (· < ·) l)
    (p : Nat → Bool) (i : Nat) :
    l.find? p = some i ↔ i ∈ l ∧ p i = true ∧ ∀ j ∈ l, j < i → p j = false := by
  constructor
  · exact find?_sorted_some l hs p i
  · rintro ⟨hmem, hp, hmin⟩
    cases h : l.find? p with
    | none =>
      rw [List.find?_eq_none] at h
      exact absurd hp (h i hmem)
    | some j =>
      obtain ⟨hjmem, hpj, hjmin⟩ := find?_sorted_some l hs p j h
      rcases Nat.lt_trichotomy j i with hlt | heq | hgt
      · exact absurd hpj (by rw [hmin j hjmem hlt]; simp)
      · rw [heq]
      · exact absurd hp (by rw [hjmin i hmem hgt]; simp)

/-- C4: `findFinishingMove(board, marker)` returns the lowest empty index at
which placing `marker` (on a copy) makes `findWinner` return `marker`, and
`none` when no single move completes a line — in particular on a full board. -/
theorem find_finishing_move_spec (b : Board) (marker : String) (hlen : b.length = 9) :
    (∀ i, find_finishing_move b marker = some i ↔
      i < 9 ∧ cell b i = " " ∧ find_winner (b.set i marker) = some marker ∧
      ∀ j, j < i → cell b j = " " → find_winner (b.set j marker) ≠ some marker) ∧
    ((∀ i, i < 9 → cell b i = " " → find_winner (b.set i marker) ≠ some marker) →
      find_finishing_move b marker = none) ∧
    ((∀ x ∈ b, x ≠ " ") → find_finishing_move b marker = none) := by
  refine ⟨?_, ?_, ?_⟩
  · intro i
    rw [find_finishing_move,
      find?_sorted_eq_some_iff _ (available_moves_sorted b) _ i]
    constructor
    · rintro ⟨hmem, hp, hmin⟩
      rw [mem_available_moves, hlen] at hmem
      refine ⟨hmem.1, hmem.2, beq_iff_eq.mp hp, ?_⟩
      intro j hji hjc hjw
      have hjmem : j ∈ available_moves b := by
        rw [mem_available_moves, hlen]
        exact ⟨by omega, hjc⟩
      have := hmin j hjmem hji
      rw [beq_eq_false_iff_ne] at this
      exact this hjw
    · rintro ⟨hi9, hic, hiw, hmin⟩
      refine ⟨?_, beq_iff_eq.mpr hiw, ?_⟩
      · rw [mem_available_moves, hlen]
        exact ⟨hi9, hic⟩
      · intro j hjmem hji
        rw [mem_available_moves, hlen] at hjmem
        rw [beq_eq_false_iff_ne]
        exact hmin j hji hjmem.2
  · intro h
    rw [find_finishing_move, List.find?_eq_none]
    intro x hx
    rw [mem_available_moves, hlen] at hx
    simp only [beq_iff_eq]
    exact h x hx.1 hx.2
  · intro hfull
    rw [find_finishing_move, (available_moves_eq_nil_iff b).mpr
      (fun hmem => hfull " " hmem rfl)]
    rfl

/-- Witness for C4: O on cells 0 and 1 finishes at index 2. -/
theorem find_finishing_move_spec_witness :
    (∀ i, find_finishing_move ["O", "O", " ", "X", "X", " ", " ", " ", " "] "O" = some i ↔
      i < 9 ∧ cell ["O", "O", " ", "X", "X", " ", " ", " ", " "] i = " " ∧
      find_winner ((["O", "O", " ", "X", "X", " ", " ", " ", " "] : Board).set i "O") = some "O" ∧
      ∀ j, j < i → cell ["O", "O", " ", "X", "X", " ", " ", " ", " "] j = " " →
        find_winner ((["O", "O", " ", "X", "X", " ", " ", " ", " "] : Board).set j "O") ≠ some "O") ∧
    ((∀ i, i < 9 → cell ["O", "O", " ", "X", "X", " ", " ", " ", " "] i = " " →
      find_winner ((["O", "O", " ", "X", "X", " ", " ", " ", " "] : Board).set i "O") ≠ some "O") →
      find_finishing_move ["O", "O", " ", "X", "X", " ", " ", " ", " "] "O" = none) ∧
    ((∀ x ∈ (["O", "O", " ", "X", "X", " ", " ", " ", " "] : Board), x ≠ " ") →
      find_finishing_move ["O", "O", " ", "X", "X", " ", " ", " ", " "] "O" = none) :=
  find_finishing_move_spec ["O", "O", " ", "X", "X", " ", " ", " ", " "] "O" (by decide)

/-- A successful `find_finishing_move` yields an in-range empty cell. -/
lemma find_finishing_move_mem {b : Board} {m : String} {i : Nat}
    (h : find_finishing_move b m = some i) : i < b.length ∧ cell b i = " " := by
  rw [find_finishing_move] at h
  exact (mem_available_moves b i).mp (List.mem_of_find?_eq_some h)

/-- Every board index is covered by the preference order. -/
lemma mem_preferred_spaces_of_lt : ∀ j < 9, j ∈ preferred_spaces := by decide

/-- Every preferred space is a board index. -/
lemma preferred_spaces_lt : ∀ j ∈ preferred_spaces, j < 9 := by decide

/-- Whatever branch fires, `choose_ai_move` answers an in-range empty cell. -/
lemma choose_ai_move_sound {b : Board} {ai hu : String} {i : Nat}
    (hlen : b.length = 9) (h : choose_ai_move b ai hu = some i) :
    i < 9 ∧ cell b i = " " := by
  rw [choose_ai_move] at h
  cases hw : find_finishing_move b ai with
  | some w =>
    simp only [hw] at h
    obtain rfl : w = i := by injection h
    have hm := find_finishing_move_mem hw
    exact ⟨hlen ▸ hm.1, hm.2⟩
  | none =>
    simp only [hw] at h
    cases hb : find_finishing_move b hu with
    | some w =>
      simp only [hb] at h
      obtain rfl : w = i := by injection h
      have hm := find_finishing_move_mem hb
      exact ⟨hlen ▸ hm.1, hm.2⟩
    | none =>
      simp only [hb] at h
      cases hp : preferred_spaces.find? (fun idx => cell b idx == " ") with
      | some w =>
        simp only [hp] at h
        obtain rfl : w = i := by injection h
        have hcell := List.find?_some hp
        simp only [beq_iff_eq] at hcell
        exact ⟨preferred_spaces_lt w (List.mem_of_find?_eq_some hp), hcell⟩
      | none =>
        simp only [hp] at h
        cases hl : available_moves b with
        | nil => rw [hl] at h; exact absurd h (by simp)
        | cons a t =>
          rw [hl] at h
          obtain rfl : a = i := by injection h
          have hm : a ∈ available_moves b := by
            rw [hl]; exact List.mem_cons_self a t
          rw [mem_available_moves] at hm
          exact ⟨hlen ▸ hm.1, hm.2⟩

/-- C9: on a board with an empty cell, `chooseAiMove` selects an index in
`[0,8]` whose cell is empty, in all of its branches. -/
theorem choose_ai_move_selects_empty (b : Board) (ai hu : String) (i : Nat)
    (hlen : b.length = 9) (_hne : " " ∈ b)
    (h : choose_ai_move b ai hu = some i) : i < 9 ∧ cell b i = " " :=
  choose_ai_move_sound hlen h

/-- Witness for C9: on the empty board the AI picks the centre, an empty cell. -/
theorem choose_ai_move_selects_empty_witness :
    4 < 9 ∧ cell [" ", " ", " ", " ", " ", " ", " ", " ", " "] 4 = " " :=
  choose_ai_move_selects_empty [" ", " ", " ", " ", " ", " ", " ", " ", " "]
    "O" "X" 4 (by decide) (by decide) (by decide)

/-- On a board with an empty cell, the preference-order scan succeeds. -/
lemma preferred_scan_isSome (b : Board) (hlen : b.length = 9) (hne : " " ∈ b) :
    (preferred_spaces.find? (fun idx => cell b idx == " ")).isSome = true := by
  rw [List.find?_isSome]
  obtain ⟨k, hk, hcell⟩ := List.mem_iff_getElem.mp hne
  refine ⟨k, mem_preferred_spaces_of_lt k (hlen ▸ hk), ?_⟩
  rw [beq_iff_eq, cell_eq_getElem b k hk]
  exact hcell

/-- On a board with an empty cell, `choose_ai_move` always answers. -/
lemma choose_ai_move_isSome (b : Board) (hlen : b.length = 9) (hne : " " ∈ b)
    (ai hu : String) : (choose_ai_move b ai hu).isSome = true := by
  cases hw : find_finishing_move b ai with
  | some w => simp [choose_ai_move, hw]
  | none =>
    cases hb : find_finishing_move b hu with
    | some w => simp [choose_ai_move, hw, hb]
    | none =>
      obtain ⟨v, hv⟩ := Option.isSome_iff_exists.mp (preferred_scan_isSome b hlen hne)
      simp [choose_ai_move, hw, hb, hv]

/-- C6: on every board with an empty cell the preference-order scan returns a
result, so `chooseAiMove` is total there and the final
lowest-index-available-move fallback is unreachable. -/
theorem choose_ai_move_fallback_unreachable (b : Board) (hlen : b.length = 9)
    (hne : " " ∈ b) :
    (preferred_spaces.find? (fun idx => cell b idx == " ")).isSome = true ∧
    ∀ ai hu : String, (choose_ai_move b ai hu).isSome = true :=
  ⟨preferred_scan_isSome b hlen hne, fun ai hu => choose_ai_move_isSome b hlen hne ai hu⟩

/-- Witness for C6 on a one-gap board. -/
theorem choose_ai_move_fallback_unreachable_witness :
    (preferred_spaces.find?
      (fun idx => cell ["X", "O", "X", "O", "X", "X", "O", "X", " "] idx == " ")).isSome = true ∧
    ∀ ai hu : String,
      (choose_ai_move ["X", "O", "X", "O", "X", "X", "O", "X", " "] ai hu).isSome = true :=
  choose_ai_move_fallback_unreachable ["X", "O", "X", "O", "X", "X", "O", "X", " "]
    (by decide) (by decide)

/-- C2: `chooseAiMove` follows the fixed three-step priority: play the winning
move if one exists, else the blocking move if one exists, else the first empty
cell in the preference order. -/
theorem choose_ai_move_priority (b : Board) (ai hu : String) (hlen : b.length = 9)
    (hne : " " ∈ b) (_hmk : ai ≠ hu) :
    (∀ i, find_finishing_move b ai = some i → choose_ai_move b ai hu = some i) ∧
    (find_finishing_move b ai = none →
      ∀ i, find_finishing_move b hu = some i → choose_ai_move b ai hu = some i) ∧
    (find_finishing_move b ai = none → find_finishing_move b hu = none →
      ∃ i, choose_ai_move b ai hu = some i ∧ cell b i = " " ∧
        ∃ ps₁ ps₂, preferred_spaces = ps₁ ++ i :: ps₂ ∧ ∀ j ∈ ps₁, cell b j ≠ " ") := by
  refine ⟨?_, ?_, ?_⟩
  · intro i hw
    simp [choose_ai_move, hw]
  · intro hw i hb
    simp [choose_ai_move, hw, hb]
  · intro hw hb
    obtain ⟨v, hv⟩ := Option.isSome_iff_exists.mp (preferred_scan_isSome b hlen hne)
    have hcell := List.find?_some hv
    simp only [beq_iff_eq] at hcell
    refine ⟨v, by simp [choose_ai_move, hw, hb, hv], hcell, ?_⟩
    obtain ⟨-, ps₁, ps₂, heq, hprev⟩ := List.find?_eq_some.mp hv
    refine ⟨ps₁, ps₂, heq, ?_⟩
    intro j hj
    simpa using hprev j hj

/-- Witness for C2 on the board of spec Scenario 3: O completes its own row at
index 2 rather than blocking X. -/
theorem choose_ai_move_priority_witness :
    (∀ i, find_finishing_move ["O", "O", " ", "X", "X", " ", " ", " ", " "] "O" = some i →
      choose_ai_move ["O", "O", " ", "X", "X", " ", " ", " ", " "] "O" "X" = some i) ∧
    (find_finishing_move ["O", "O", " ", "X", "X", " ", " ", " ", " "] "O" = none →
      ∀ i, find_finishing_move ["O", "O", " ", "X", "X", " ", " ", " ", " "] "X" = some i →
        choose_ai_move ["O", "O", " ", "X", "X", " ", " ", " ", " "] "O" "X" = some i) ∧
    (find_finishing_move ["O", "O", " ", "X", "X", " ", " ", " ", " "] "O" = none →
      find_finishing_move ["O", "O", " ", "X", "X", " ", " ", " ", " "] "X" = none →
      ∃ i, choose_ai_move ["O", "O", " ", "X", "X", " ", " ", " ", " "] "O" "X" = some i ∧
        cell ["O", "O", " ", "X", "X", " ", " ", " ", " "] i = " " ∧
        ∃ ps₁ ps₂, preferred_spaces = ps₁ ++ i :: ps₂ ∧
          ∀ j ∈ ps₁, cell ["O", "O", " ", "X", "X", " ", " ", " ", " "] j ≠ " ") :=
  choose_ai_move_priority ["O", "O", " ", "X", "X", " ", " ", " ", " "] "O" "X"
    (by decide) (by decide) (by decide)

/-- The state-threaded loop returns the untouched input board together with
the pure result. -/
lemma find_finishing_move_loop_spec (b : Board) (marker : String) (l : List Nat) :
    find_finishing_move_loop b marker l
      = (l.find? (fun idx => find_winner (b.set idx marker) == some marker), b) := by
  induction l with
  | nil => rfl
  | cons idx rest ih =>
    rw [find_finishing_move_loop]
    by_cases h : find_winner (b.set idx marker) = some marker
    · rw [if_pos h, List.find?_cons_of_pos _ (by simpa using h)]
    · rw [if_neg h, ih, List.find?_cons_of_neg _ (by simpa using h)]

/-- C8: `findFinishingMove` never mutates its input: the caller-visible board
after the call is cell-for-cell the board before it (the hypothetical
placements land on the copy), and the returned index is the pure result. -/
theorem find_finishing_move_no_mutation (b : Board) (marker : String) :
    (find_finishing_move_st b marker).2 = b ∧
    (find_finishing_move_st b marker).1 = find_finishing_move b marker := by
  rw [find_finishing_move_st, find_finishing_move_loop_spec, find_finishing_move]
  exact ⟨rfl, rfl⟩

/-- C1: applying a move to an occupied in-range cell raises `InvalidMoveError`
and leaves the board unchanged — no silent clamp, ignore or overwrite. -/
theorem apply_move_occupied_raises (b : Board) (i : Nat) (marker : String)
    (_hi : i ≤ 8) (hocc : cell b i ≠ " ") :
    apply_move b i marker = (some MoveError.invalidMoveError, b) := by
  rw [apply_move, if_neg]
  rintro ⟨-, hc⟩
  exact hocc hc

/-- Witness for C1: overwriting the X at index 0 is refused. -/
theorem apply_move_occupied_raises_witness :
    apply_move ["X", " ", " ", " ", " ", " ", " ", " ", " "] 0 "O"
      = (some MoveError.invalidMoveError, ["X", " ", " ", " ", " ", " ", " ", " ", " "]) :=
  apply_move_occupied_raises ["X", " ", " ", " ", " ", " ", " ", " ", " "] 0 "O"
    (by decide) (by decide)

/-- Writing into a board decomposes it around the written index. -/
lemma set_decomp (b : Board) (m : Nat) (v : String) (h : m < b.length) :
    b.set m v = b.take m ++ v :: b.drop (m + 1) := by
  rw [List.set_eq_take_append_cons_drop, if_pos h]

/-- A board decomposes around any in-range index. -/
lemma board_decomp (b : Board) (m : Nat) (h : m < b.length) :
    b = b.take m ++ b[m] :: b.drop (m + 1) := by
  conv_lhs => rw [← List.take_append_drop m b, List.drop_eq_getElem_cons h]

/-- Writing a marker into an empty cell: the count of any non-empty value
grows by one exactly when it is the written marker. -/
lemma count_set_of_cell_empty (b : Board) (m : Nat) (v : String) (hm : m < b.length)
    (he : cell b m = " ") (w : String) (hw : w ≠ " ") :
    (b.set m v).count w = b.count w + (if v = w then 1 else 0) := by
  have hbm : b[m] = " " := (cell_eq_getElem b m hm).symm.trans he
  conv_lhs => rw [set_decomp b m v hm]
  conv_rhs => rw [board_decomp b m hm, hbm]
  rw [List.count_append, List.count_append, List.count_cons, List.count_cons]
  have h1 : (" " == w) = false := beq_eq_false_iff_ne.mpr (fun hc => hw hc.symm)
  rw [h1]
  by_cases hv : v = w
  · simp [hv]
    omega
  · simp [beq_eq_false_iff_ne.mpr hv, hv]

/-- Writing a marker into an empty cell consumes exactly one empty cell. -/
lemma count_empty_set (b : Board) (m : Nat) (v : String) (hm : m < b.length)
    (he : cell b m = " ") (hv : v ≠ " ") :
    (b.set m v).count " " + 1 = b.count " " := by
  have hbm : b[m] = " " := (cell_eq_getElem b m hm).symm.trans he
  conv_lhs => rw [set_decomp b m v hm]
  conv_rhs => rw [board_decomp b m hm, hbm]
  rw [List.count_append, List.count_append, List.count_cons, List.count_cons]
  rw [beq_eq_false_iff_ne.mpr hv]
  simp
  omega

/-- The inductive invariant of the session loop: length stays 9, cells hold
only the three legal values, and the counts track whose turn it is. -/
lemma boardReached_strong {b : Board} {c : String} (h : BoardReached b c) :
    b.length = 9 ∧ (∀ x ∈ b, x = " " ∨ x = "X" ∨ x = "O") ∧
    ((c = "X" ∧ b.count "X" = b.count "O") ∨
     (c = "O" ∧ b.count "X" = b.count "O" + 1)) := by
  induction h with
  | init =>
    refine ⟨by simp [empty_board], ?_, Or.inl ⟨rfl, ?_⟩⟩
    · intro x hx
      exact Or.inl (List.eq_of_mem_replicate hx)
    · simp [empty_board, List.count_replicate]
  | @human b m hb hm hc ih =>
    obtain ⟨hlen, hcells, hcnt⟩ := ih
    have hm9 : m < b.length := hlen ▸ hm
    have heq : b.count "X" = b.count "O" := by
      rcases hcnt with ⟨-, hx⟩ | ⟨hcontra, -⟩
      · exact hx
      · exact absurd hcontra (by decide)
    refine ⟨by rw [List.length_set]; exact hlen, ?_, Or.inr ⟨rfl, ?_⟩⟩
    · intro x hx
      rcases List.mem_or_eq_of_mem_set hx with hxb | rfl
      · exact hcells x hxb
      · exact Or.inr (Or.inl rfl)
    · rw [count_set_of_cell_empty b m "X" hm9 hc "X" (by decide),
        count_set_of_cell_empty b m "X" hm9 hc "O" (by decide)]
      simp [heq]
  | @ai b m hb hmv ih =>
    obtain ⟨hlen, hcells, hcnt⟩ := ih
    obtain ⟨hm9, hce⟩ := choose_ai_move_sound hlen hmv
    have hmb : m < b.length := hlen ▸ hm9
    have heq : b.count "X" = b.count "O" + 1 := by
      rcases hcnt with ⟨hcontra, -⟩ | ⟨-, hx⟩
      · exact absurd hcontra (by decide)
      · exact hx
    refine ⟨by rw [List.length_set]; exact hlen, ?_, Or.inl ⟨rfl, ?_⟩⟩
    · intro x hx
      rcases List.mem_or_eq_of_mem_set hx with hxb | rfl
      · exact hcells x hxb
      · exact Or.inr (Or.inr rfl)
    · rw [count_set_of_cell_empty b m "O" hmb hce "X" (by decide),
        count_set_of_cell_empty b m "O" hmb hce "O" (by decide)]
      simp [heq]

/-- C5: every board the session loop reaches from the empty board with X first
has X- and O-counts differing by at most 1, and every cell holds one of the
three legal values. -/
theorem session_invariant (b : Board) (c : String) (h : BoardReached b c) :
    (b.count "X" ≤ b.count "O" + 1 ∧ b.count "O" ≤ b.count "X" + 1) ∧
    ∀ x ∈ b, x = " " ∨ x = "X" ∨ x = "O" := by
  obtain ⟨-, hcells, hcnt⟩ := boardReached_strong h
  refine ⟨?_, hcells⟩
  rcases hcnt with ⟨-, hx⟩ | ⟨-, hx⟩ <;> omega

/-- Witness for C5 at the session start. -/
theorem session_invariant_witness :
    (empty_board.count "X" ≤ empty_board.count "O" + 1 ∧
      empty_board.count "O" ≤ empty_board.count "X" + 1) ∧
    ∀ x ∈ empty_board, x = " " ∨ x = "X" ∨ x = "O" :=
  session_invariant empty_board "X" BoardReached.init

/-- A nonzero count of empty cells means an empty cell is present. -/
lemma mem_of_count_empty_ne_zero {b : Board} (h : b.count " " ≠ 0) : " " ∈ b := by
  by_contra hh
  exact h (List.count_eq_zero.mpr hh)

/-- Each loop iteration writes the current marker into an in-range empty
cell, for both the human collaborator and the AI. -/
lemma game_move_valid (hm : Board → Nat)
    (hv : ∀ b : Board, b.length = 9 → " " ∈ b → hm b < 9 ∧ cell b (hm b) = " ")
    (b : Board) (c : String) (hlen : b.length = 9) (hc : c = "X" ∨ c = "O")
    (hne : " " ∈ b) :
    game_move hm b c < 9 ∧ cell b (game_move hm b c) = " " := by
  rcases hc with rfl | rfl
  · rw [game_move, if_pos rfl]
    exact hv b hlen hne
  · rw [game_move, if_neg (by decide)]
    obtain ⟨v, hvv⟩ := Option.isSome_iff_exists.mp
      (choose_ai_move_isSome b hlen hne "O" "X")
    rw [hvv, Option.getD_some]
    exact choose_ai_move_sound hlen hvv

/-- With fuel covering the remaining empty cells, the loop returns. -/
lemma run_game_total (hm : Board → Nat)
    (hv : ∀ b : Board, b.length = 9 → " " ∈ b → hm b < 9 ∧ cell b (hm b) = " ") :
    ∀ (n : Nat) (b : Board) (c : String), b.length = 9 → (c = "X" ∨ c = "O") →
      b.count " " ≤ n → b.count " " ≠ 0 → (run_game hm n b c).isSome = true := by
  intro n
  induction n with
  | zero =>
    intro b c _ _ hle hne
    omega
  | succ n ih =>
    intro b c hlen hc hle hne
    have hmem : " " ∈ b := mem_of_count_empty_ne_zero hne
    obtain ⟨hmove9, hmovee⟩ := game_move_valid hm hv b c hlen hc hmem
    have hmb : game_move hm b c < b.length := hlen ▸ hmove9
    have hcne : c ≠ " " := by
      rcases hc with rfl | rfl <;> decide
    have hcnt2 : (b.set (game_move hm b c) c).count " " + 1 = b.count " " :=
      count_empty_set b (game_move hm b c) c hmb hmovee hcne
    rw [run_game]
    cases hw : find_winner (b.set (game_move hm b c) c) with
    | some w => simp [hw]
    | none =>
      simp only [hw]
      by_cases hnil : available_moves (b.set (game_move hm b c) c) = []
      · simp [hnil]
      · rw [if_neg hnil]
        apply ih
        · rw [List.length_set]
          exact hlen
        · rcases hc with rfl | rfl
          · exact Or.inr (by rw [next_marker, if_pos rfl])
          · exact Or.inl (by rw [next_marker, if_neg (by decide)])
        · omega
        · intro hzero
          rw [available_moves_eq_nil_iff] at hnil
          exact hnil (fun hmem2 => (List.count_eq_zero.mp hzero) hmem2)

/-- C10: the session loop terminates — each iteration consumes one empty cell,
so starting from the empty board it returns a winner or a tie within 9 placed
moves, for every valid human collaborator. -/
theorem run_tic_tac_toe_terminates (hm : Board → Nat)
    (hv : ∀ b : Board, b.length = 9 → " " ∈ b → hm b < 9 ∧ cell b (hm b) = " ") :
    (∀ (b : Board) (c : String), b.length = 9 → (c = "X" ∨ c = "O") → " " ∈ b →
      (b.set (game_move hm b c) c).count " " + 1 = b.count " ") ∧
    (run_game hm 9 empty_board "X").isSome = true := by
  constructor
  · intro b c hlen hc hne
    obtain ⟨hmove9, hmovee⟩ := game_move_valid hm hv b c hlen hc hne
    exact count_empty_set b (game_move hm b c) c (hlen ▸ hmove9) hmovee
      (by rcases hc with rfl | rfl <;> decide)
  · apply run_game_total hm hv 9 empty_board "X"
    · simp [empty_board]
    · exact Or.inl rfl
    · simp [empty_board, List.count_replicate]
    · simp [empty_board, List.count_replicate]

/-- The always-lowest-available human collaborator is valid on 9-cell boards
with an empty cell. -/
lemma lowest_move_valid : ∀ b : Board, b.length = 9 → " " ∈ b →
    (available_moves b).headD 0 < 9 ∧ cell b ((available_moves b).headD 0) = " " := by
  intro b hlen hmem
  have hne : available_moves b ≠ [] := by
    rw [Ne, available_moves_eq_nil_iff]
    exact fun hh => hh hmem
  cases hl : available_moves b with
  | nil => exact absurd hl hne
  | cons a t =>
    have ha : a ∈ available_moves b := by
      rw [hl]
      exact List.mem_cons_self a t
    rw [mem_available_moves, hlen] at ha
    simpa using ha

/-- Witness for C10: with the lowest-available-move human the loop returns
within 9 moves. -/
theorem run_tic_tac_toe_terminates_witness :
    (∀ (b : Board) (c : String), b.length = 9 → (c = "X" ∨ c = "O") → " " ∈ b →
      (b.set (game_move (fun b2 => (available_moves b2).headD 0) b c) c).count " " + 1
        = b.count " ") ∧
    (run_game (fun b2 => (available_moves b2).headD 0) 9 empty_board "X").isSome = true :=
  run_tic_tac_toe_terminates (fun b2 => (available_moves b2).headD 0) lowest_move_valid

end Crunch
